import Mathlib

/-!
Verification of the delegate-range parser and delegate-list validator of
ceph-auto-aws (`handson/clusters.py`): `expand_delegate_list` and
`Install.validate_delegate_list`.

Python strings are embedded as lists of characters (`PyStr`); the Python 2
builtins used by the code (`str.split`, `int`, `range`, `sorted`, `set`,
negative indexing) are modelled by the explicit functions below.  In
particular `set` is modelled by the CPython 2.7 hash table of
`Objects/setobject.c` — open addressing with perturbed probing, the
`fill*3 >= size*2` resize policy, and iteration in slot order — because the
code reads `list(set(...))` positionally and its outputs depend on that
order.  The
process-terminating `error_exit` helper (from `handson/error.py`, outside
the verified sources) is modelled by an `Except` error channel carrying the
message; the error constructors follow the specification's taxonomy
(InvalidRangeSyntax / ConfigurationError / DelegateRangeExceeded), plus a
constructor for an uncaught Python `IndexError` fault.
-/

/-- A Python string, embedded as its list of characters. -/
abbrev PyStr := List Char

/-- Convert a Lean string literal to the embedded Python string form. -/
def pys (s : String) : PyStr := s.toList

/-- Failure outcomes of the parser and validator.  `invalidRange` stands for
the spec's InvalidRangeSyntax (every `error_exit` reachable from
`expand_delegate_list`), `configError` for ConfigurationError (the bad-yaml
`error_exit` in `validate_delegate_list`), `exceedsMax` for
DelegateRangeExceeded, and `indexError` for an uncaught Python `IndexError`
raised by indexing an empty list. -/
inductive Err where
  | invalidRange (msg : String)
  | configError (msg : String)
  | exceedsMax (msg : String)
  | indexError (msg : String)
deriving DecidableEq, Repr

deriving instance DecidableEq for Except

/-- Model of Python's `s.split(sep)` for a one-character separator: split at
every occurrence of `sep`, keeping empty chunks, so the result always has at
least one element (`"".split(sep) == [""]`). -/
def splitOnChar (sep : Char) : PyStr → List PyStr
  | [] => [[]]
  | c :: rest =>
    if c = sep then [] :: splitOnChar sep rest
    else
      match splitOnChar sep rest with
      | [] => [[c]]
      | chunk :: chunks => (c :: chunk) :: chunks

/-- The whitespace characters stripped by Python 2's `int(str)`. -/
def isPySpace (c : Char) : Bool :=
  c = ' ' || c = '\t' || c = '\n' || c = '\r' || c = '\x0b' || c = '\x0c'

/-- Strip leading and trailing Python whitespace. -/
def stripChars (s : PyStr) : PyStr :=
  ((s.dropWhile isPySpace).reverse.dropWhile isPySpace).reverse

/-- Value of a list of decimal digit characters. -/
def digitsVal (ds : List Char) : Nat :=
  ds.foldl (fun a c => a * 10 + (c.toNat - 48)) 0

/-- Model of Python 2's `int(str)`: strip surrounding whitespace, allow one
optional sign, then require a nonempty run of decimal digits; any other
shape raises `ValueError`, modelled as `none`. -/
def pyInt (s : PyStr) : Option Int :=
  match stripChars s with
  | [] => none
  | c :: rest =>
    let sgn : Int := if c = '-' then -1 else 1
    let ds : List Char := if c = '-' || c = '+' then rest else c :: rest
    if ds ≠ [] ∧ ds.all Char.isDigit = true then some (sgn * (digitsVal ds : Int))
    else none

/-- Model of `ti = map(int, t)` (Python 2: a list, raising `ValueError` at
the first non-numeric part).  The raised error reaches `error_exit(e)` in
`expand_delegate_list`, i.e. InvalidRangeSyntax. -/
def mapInt : List PyStr → Except Err (List Int)
  | [] => .ok []
  | p :: rest =>
    match pyInt p with
    | none => .error (.invalidRange ("invalid literal for int() with base 10: " ++ String.mk p))
    | some n =>
      match mapInt rest with
      | .error e => .error e
      | .ok ns => .ok (n :: ns)

/-- Model of Python's `range(a, b)`: the integers `a, a+1, ..., b-1`. -/
def pyRange (a b : Int) : List Int :=
  (List.range (b - a).toNat).map (fun i : Nat => a + (i : Int))

/-- One iteration of the `for item in raw_input.split(',')` loop body of
`expand_delegate_list`: split the item on `-`, map `int` over the parts,
then either take the single value, expand an accepted `lo-hi` range via
`range(ti[0], ti[1]+1)`, or fail with `error_exit("Illegal delegate list")`. -/
def processItem (item : PyStr) : Except Err (List Int) :=
  match mapInt (splitOnChar '-' item) with
  | .error e => .error e
  | .ok ti =>
    match ti with
    | [a] => .ok [a]
    | [a, b] =>
      if b > a ∧ b - a < 50 then .ok (pyRange a (b + 1))
      else .error (.invalidRange "Illegal delegate list")
    | _ => .error (.invalidRange "Illegal delegate list")

/-- The whole loop of `expand_delegate_list`: `intermediate_list` is the
concatenation, in order, of each item's contribution; the first failing
item aborts via `error_exit`. -/
def combineItems : List PyStr → Except Err (List Int)
  | [] => .ok []
  | item :: rest =>
    match processItem item with
    | .error e => .error e
    | .ok xs =>
      match combineItems rest with
      | .error e => .error e
      | .ok ys => .ok (xs ++ ys)

/-- `intermediate_list` as built from `raw_input.split(',')`. -/
def combined_sequence (s : PyStr) : Except Err (List Int) :=
  combineItems (splitOnChar ',' s)

/-- Python 2 `hash()` of a nonnegative integer: the value itself for machine
ints; for longs (values of 2^63 and above on a 64-bit build) the digit-wise
rotation in `long_hash` reduces the value modulo `2^64 - 1`.  Only small
values reach the concrete theorems below, and no general theorem depends on
the hash values. -/
def pyHash (n : Int) : Nat := n.toNat % (2 ^ 64 - 1)

/-- The CPython 2.7 open-addressing probe of `set_lookkey`: start at slot
`i % size` with `perturb = hash`, and step `i ← 5*i + perturb + 1` (`size_t`
arithmetic, hence modulo `2^64`), `perturb ← perturb >> 5`, until an empty
slot is found.  The keys inserted below are pairwise distinct, so the
equality branch of the lookup never fires and the first empty slot along the
probe sequence is the insertion point.  `fuel` bounds the recursion:
`size + 16` steps always suffice in CPython, because the perturbation dies
out within 13 steps (`2^64 < 32^13`) and the residual `i ← 5*i + 1`
recurrence is a full-period LCG modulo the power-of-two table size, visiting
every slot within `size` further steps while an empty slot exists; the
`none` fallback in `insertKey` is therefore never taken in reality and only
makes the function total. -/
def probeLoop (table : List (Option Int)) : Nat → Nat → Nat → Option Nat
  | 0, _, _ => none
  | fuel + 1, i, perturb =>
    match table.get? (i % table.length) with
    | some none => some (i % table.length)
    | _ => probeLoop table fuel ((5 * i + perturb + 1) % 2 ^ 64) (perturb / 32)

/-- First empty slot of a table, in slot order: the total fallback for
`probeLoop` (see its docstring). -/
def findFirstEmpty : List (Option Int) → Option Nat
  | [] => none
  | none :: _ => some 0
  | some _ :: rest => (findFirstEmpty rest).map (· + 1)

/-- Insert a key that is not already present into the slot selected by the
probe sequence. -/
def insertKey (table : List (Option Int)) (x : Int) : List (Option Int) :=
  match probeLoop table (table.length + 16) (pyHash x % table.length) (pyHash x) with
  | some slot => table.set slot (some x)
  | none =>
    match findFirstEmpty table with
    | some slot => table.set slot (some x)
    | none => table

/-- `list(s)` for a set `s`: the keys in slot order. -/
def setToList (table : List (Option Int)) : List Int := table.filterMap id

/-- The set's `fill` counter (equal to `used`: nothing is ever deleted
here, so there are no dummy entries). -/
def setFill (table : List (Option Int)) : Nat := (setToList table).length

/-- The reinsertion loop of `set_table_resize`: the old table's keys, in
slot order, inserted one by one into a fresh table. -/
def insertAll (keys : List Int) (table : List (Option Int)) : List (Option Int) :=
  keys.foldl insertKey table

/-- The size loop of `set_table_resize`: the smallest power of two greater
than `minused`, starting from `PySet_MINSIZE = 8`.  `fuel` bounds the
doubling; `minused + 8` doublings always suffice. -/
def growSizeAux (fuel n minused : Nat) : Nat :=
  match fuel with
  | 0 => n
  | fuel + 1 => if n ≤ minused then growSizeAux fuel (2 * n) minused else n

/-- `set_table_resize`: rebuild the table at the new size. -/
def resizeTo (newsize : Nat) (table : List (Option Int)) : List (Option Int) :=
  insertAll (setToList table) (List.replicate newsize none)

/-- `set_add_key` for a key known to be absent: insert it, then, when
`fill*3 >= size*2`, resize to `used*4` rounded up to a power of two. -/
def addKey (table : List (Option Int)) (x : Int) : List (Option Int) :=
  let t := insertKey table x
  if 2 * t.length ≤ 3 * setFill t then
    resizeTo (growSizeAux (4 * setFill t + 8) 8 (4 * setFill t)) t
  else t

/-- `set(keys)` for a list of pairwise distinct keys: fold `set_add_key`
over the keys, starting from the empty 8-slot table. -/
def pySetFromList (keys : List Int) : List (Option Int) :=
  keys.foldl addKey (List.replicate 8 none)

/-- `final_list = list(set(sorted(intermediate_list)))` with CPython 2
semantics.  `sorted` yields the ascending list, duplicates included; `set`
inserts each value in that order, and re-adding a value already present
leaves a CPython set completely unchanged (the lookup finds the equal key,
`fill` does not grow, so no resize can trigger), so the construction equals
inserting the distinct sorted values — `dedup` of the sorted list — in
ascending order; `list` then reads the hash table in slot order, which for
small ints (`hash(n) = n`) is *not* in general ascending: `{1, 8}` lists as
`[8, 1]` because 8 occupies slot `8 mod 8 = 0` while 1 occupies slot 1. -/
def pySetList (l : List Int) : List Int :=
  setToList (pySetFromList ((l.insertionSort (· ≤ ·)).dedup))

/-- Lines 65-70 of `clusters.py`: build `final_list` and run the bound
checks `final_list[0] < 1` and `final_list[-1] > 50`; indexing an empty
`final_list` would raise an uncaught `IndexError`. -/
def finalize (intermediate : List Int) : Except Err (Option (List Int)) :=
  match pySetList intermediate with
  | [] => .error (.indexError "list index out of range")
  | a :: rest =>
    if a < 1 then .error (.invalidRange "detected too-low delegate (min. 1)")
    else if (a :: rest).getLastD 0 > 50 then
      .error (.invalidRange "detected too-high delegate (max. 50)")
    else .ok (some (a :: rest))

/-- `expand_delegate_list(raw_input)` from `handson/clusters.py`: `None`
passes through; otherwise split on commas, expand each item, deduplicate
and sort, and bound-check the result. -/
def expand_delegate_list (raw : Option PyStr) : Except Err (Option (List Int)) :=
  match raw with
  | none => .ok none
  | some s =>
    match combined_sequence s with
    | .error e => .error e
    | .ok intermediate => finalize intermediate

/-- `Install.validate_delegate_list` from `handson/clusters.py`, with the
two external inputs made explicit: `delegate_list` is
`self.args.delegate_list` (the parser's output) and `max_delegates` is
`self.tree()['delegates']` (the YaML bound).  A `None` list returns `True`;
a missing or out-of-range bound hits the bad-yaml `error_exit`
(ConfigurationError); a list whose last element exceeds the bound hits the
exceeds `error_exit` (DelegateRangeExceeded); otherwise the method falls
off the end, returning Python's `None`. -/
def validate_delegate_list (delegate_list : Option (List Int))
    (max_delegates : Option Int) : Except Err (Option Bool) :=
  match delegate_list with
  | none => .ok (some true)
  | some dl =>
    match max_delegates with
    | none => .error (.configError "Bad number of delegates in yaml: None")
    | some m =>
      if m < 1 ∨ m > 50 then
        .error (.configError ("Bad number of delegates in yaml: " ++ toString m))
      else
        match dl with
        | [] => .error (.indexError "list index out of range")
        | a :: rest =>
          if (a :: rest).getLastD 0 > m then
            .error (.exceedsMax ("Delegate list exceeds " ++ toString m ++
              " (maximum number of delegates in yaml)"))
          else .ok none

/-- The decimal digit character for `n < 10`. -/
def digitChar (n : Nat) : Char := Char.ofNat (48 + n)

/-- Fuel-driven decimal rendering of a natural number (most significant
digit first). -/
def renderNatAux (fuel : Nat) (n : Nat) : List Char :=
  match fuel with
  | 0 => []
  | fuel + 1 =>
    if n < 10 then [digitChar n]
    else renderNatAux fuel (n / 10) ++ [digitChar (n % 10)]

/-- Decimal rendering of a natural number. -/
def renderNat (n : Nat) : List Char := renderNatAux (n + 1) n

/-- Decimal rendering of a nonnegative delegate id. -/
def renderInt (n : Int) : PyStr := renderNat n.toNat

/-- The comma-separated decimal string of a list of delegate ids, in the
list's own order. -/
def renderDelegates : List Int → PyStr
  | [] => []
  | [n] => renderInt n
  | n :: rest => renderInt n ++ ',' :: renderDelegates rest

/-- A token is malformed when some hyphen-separated part is non-numeric or
when it splits into more than two parts. -/
def badToken (item : PyStr) : Prop :=
  (∃ p ∈ splitOnChar '-' item, pyInt p = none) ∨ 2 < (splitOnChar '-' item).length


open scoped List

/-! ### Basic lemmas about the embedded Python builtins -/

theorem splitOnChar_ne_nil (sep : Char) (s : PyStr) : splitOnChar sep s ≠ [] := by
  induction s with
  | nil => simp [splitOnChar]
  | cons c rest ih =>
    by_cases h : c = sep
    · simp [splitOnChar, h]
    · simp only [splitOnChar, if_neg h]
      cases hs : splitOnChar sep rest with
      | nil => simp
      | cons chunk chunks => simp

theorem pyRange_length (a b : Int) : (pyRange a b).length = (b - a).toNat := by
  rw [pyRange, List.length_map, List.length_range]

theorem mem_pyRange {a b x : Int} : x ∈ pyRange a b ↔ a ≤ x ∧ x < b := by
  constructor
  · intro hx
    rw [pyRange, List.mem_map] at hx
    obtain ⟨i, hi, rfl⟩ := hx
    rw [List.mem_range] at hi
    omega
  · intro hx
    obtain ⟨h1, h2⟩ := hx
    rw [pyRange, List.mem_map]
    refine ⟨(x - a).toNat, ?_, by omega⟩
    rw [List.mem_range]
    omega

theorem mapInt_error_kind {ps : List PyStr} {e : Err} (h : mapInt ps = .error e) :
    ∃ m, e = Err.invalidRange m := by
  induction ps with
  | nil => simp [mapInt] at h
  | cons p rest ih =>
    simp only [mapInt] at h
    split at h
    · rw [Except.error.injEq] at h
      exact ⟨_, h.symm⟩
    · split at h
      · rw [Except.error.injEq] at h
        exact ih (by rw [← h]; assumption)
      · simp at h

theorem mapInt_ok_length {ps : List PyStr} {ns : List Int} (h : mapInt ps = .ok ns) :
    ns.length = ps.length := by
  induction ps generalizing ns with
  | nil => simp [mapInt] at h; simp [← h]
  | cons p rest ih =>
    simp only [mapInt] at h
    split at h
    · simp at h
    · split at h
      · simp at h
      · rw [Except.ok.injEq] at h
        subst h
        simp [ih (by assumption)]

theorem processItem_error_kind {item : PyStr} {e : Err}
    (h : processItem item = .error e) : ∃ m, e = Err.invalidRange m := by
  simp only [processItem] at h
  split at h
  · rw [Except.error.injEq] at h
    exact mapInt_error_kind (by rw [← h] at *; assumption)
  · split at h
    · simp at h
    · split at h
      · simp at h
      · rw [Except.error.injEq] at h
        exact ⟨_, h.symm⟩
    · rw [Except.error.injEq] at h
      exact ⟨_, h.symm⟩

theorem processItem_ok_ne_nil {item : PyStr} {xs : List Int}
    (h : processItem item = .ok xs) : xs ≠ [] := by
  simp only [processItem] at h
  split at h
  · simp at h
  · split at h
    · rw [Except.ok.injEq] at h
      simp [← h]
    · split at h
      · rw [Except.ok.injEq] at h
        intro hnil
        rw [hnil] at h
        have hlen := congrArg List.length h
        rw [pyRange_length] at hlen
        simp at hlen
        omega
      · simp at h
    · simp at h

theorem mapInt_ok_parts {ps : List PyStr} {ns : List Int} (h : mapInt ps = .ok ns) :
    ∀ p ∈ ps, pyInt p ≠ none := by
  induction ps generalizing ns with
  | nil => intro p hp; simp at hp
  | cons q rest ih =>
    intro p hp
    simp only [mapInt] at h
    split at h
    · simp at h
    · rename_i n hq
      split at h
      · simp at h
      · rename_i ns' hrest
        rcases List.mem_cons.mp hp with rfl | hmem
        · rw [hq]; simp
        · exact ih hrest p hmem

theorem badToken_error {item : PyStr} (hb : badToken item) :
    ∃ m, processItem item = .error (.invalidRange m) := by
  simp only [processItem]
  cases hm : mapInt (splitOnChar '-' item) with
  | error e =>
    obtain ⟨m, rfl⟩ := mapInt_error_kind hm
    exact ⟨m, rfl⟩
  | ok ti =>
    rcases hb with ⟨p, hp, hnone⟩ | hlen
    · exact absurd hnone (mapInt_ok_parts hm p hp)
    · have hti : 2 < ti.length := by rw [mapInt_ok_length hm]; exact hlen
      match ti, hti with
      | t0 :: t1 :: t2 :: tr, _ => exact ⟨"Illegal delegate list", rfl⟩

theorem combineItems_error_kind {items : List PyStr} {e : Err}
    (h : combineItems items = .error e) : ∃ m, e = Err.invalidRange m := by
  induction items with
  | nil => simp [combineItems] at h
  | cons item rest ih =>
    simp only [combineItems] at h
    split at h
    · rename_i e' hpi
      rw [Except.error.injEq] at h
      subst h
      exact processItem_error_kind hpi
    · split at h
      · rename_i e' hci
        rw [Except.error.injEq] at h
        subst h
        exact ih hci
      · simp at h

theorem combineItems_bad {items : List PyStr} (hbad : ∃ item ∈ items, badToken item) :
    ∃ m, combineItems items = .error (.invalidRange m) := by
  induction items with
  | nil => simp at hbad
  | cons item rest ih =>
    simp only [combineItems]
    cases hpi : processItem item with
    | error e =>
      obtain ⟨m, rfl⟩ := processItem_error_kind hpi
      exact ⟨m, rfl⟩
    | ok xs =>
      obtain ⟨it, hit, hb⟩ := hbad
      rcases List.mem_cons.mp hit with rfl | hmem
      · obtain ⟨m, hm⟩ := badToken_error hb
        rw [hm] at hpi
        cases hpi
      · obtain ⟨m, hm⟩ := ih ⟨it, hmem, hb⟩
        rw [hm]
        exact ⟨m, rfl⟩

theorem combineItems_ok_ne_nil {items : List PyStr} {im : List Int}
    (hne : items ≠ []) (h : combineItems items = .ok im) : im ≠ [] := by
  cases items with
  | nil => exact absurd rfl hne
  | cons item rest =>
    simp only [combineItems] at h
    split at h
    · simp at h
    · rename_i xs hpi
      split at h
      · simp at h
      · rw [Except.ok.injEq] at h
        subst h
        intro hc
        rw [List.append_eq_nil] at hc
        exact processItem_ok_ne_nil hpi hc.1

/-! ### Lemmas about the CPython set model -/

theorem probeLoop_empty {table : List (Option Int)} :
    ∀ {fuel i p slot : Nat}, probeLoop table fuel i p = some slot →
      table.get? slot = some none := by
  intro fuel
  induction fuel with
  | zero => intro i p slot h; simp [probeLoop] at h
  | succ fuel ih =>
    intro i p slot h
    simp only [probeLoop] at h
    split at h
    · rename_i hslot
      rw [Option.some.injEq] at h
      subst h
      exact hslot
    · exact ih h

theorem findFirstEmpty_spec : ∀ {table : List (Option Int)} {j : Nat},
    findFirstEmpty table = some j → table.get? j = some none := by
  intro table
  induction table with
  | nil => intro j h; simp [findFirstEmpty] at h
  | cons o rest ih =>
    intro j h
    cases o with
    | none =>
      simp only [findFirstEmpty, Option.some.injEq] at h
      subst h
      rfl
    | some x =>
      simp only [findFirstEmpty, Option.map_eq_some'] at h
      obtain ⟨j', hj', rfl⟩ := h
      rw [List.get?_cons_succ]
      exact ih hj'

theorem findFirstEmpty_total : ∀ {table : List (Option Int)},
    (∃ j, table.get? j = some none) → ∃ slot, findFirstEmpty table = some slot := by
  intro table
  induction table with
  | nil => rintro ⟨j, hj⟩; simp at hj
  | cons o rest ih =>
    rintro ⟨j, hj⟩
    cases o with
    | none => exact ⟨0, rfl⟩
    | some x =>
      cases j with
      | zero => simp at hj
      | succ j =>
        rw [List.get?_cons_succ] at hj
        obtain ⟨s, hs⟩ := ih ⟨j, hj⟩
        refine ⟨s + 1, ?_⟩
        simp only [findFirstEmpty, hs, Option.map_some']

theorem setToList_cons_none (rest : List (Option Int)) :
    setToList (none :: rest) = setToList rest := rfl

theorem setToList_cons_some (x : Int) (rest : List (Option Int)) :
    setToList (some x :: rest) = x :: setToList rest := rfl

theorem exists_empty_of_fill_lt : ∀ {table : List (Option Int)},
    setFill table < table.length → ∃ j, table.get? j = some none := by
  intro table
  induction table with
  | nil => intro h; simp [setFill, setToList] at h
  | cons o rest ih =>
    intro h
    cases o with
    | none => exact ⟨0, rfl⟩
    | some x =>
      have h2 : setFill rest < rest.length := by
        have e : setFill (some x :: rest) = setFill rest + 1 := by
          simp [setFill, setToList_cons_some]
        rw [e, List.length_cons] at h
        omega
      obtain ⟨j, hj⟩ := ih h2
      exact ⟨j + 1, by rw [List.get?_cons_succ]; exact hj⟩

theorem set_empty_perm : ∀ (table : List (Option Int)) (j : Nat) (x : Int),
    table.get? j = some none →
    setToList (table.set j (some x)) ~ x :: setToList table := by
  intro table
  induction table with
  | nil => intro j x h; simp at h
  | cons o rest ih =>
    intro j x h
    cases j with
    | zero =>
      rw [List.get?_cons_zero, Option.some.injEq] at h
      subst h
      rw [List.set_cons_zero, setToList_cons_some, setToList_cons_none]
    | succ j =>
      rw [List.get?_cons_succ] at h
      rw [List.set_cons_succ]
      cases o with
      | none =>
        rw [setToList_cons_none, setToList_cons_none]
        exact ih j x h
      | some y =>
        rw [setToList_cons_some, setToList_cons_some]
        exact ((ih j x h).cons y).trans (List.Perm.swap x y _)

theorem insertKey_spec {table : List (Option Int)} (x : Int)
    (h : setFill table < table.length) :
    setToList (insertKey table x) ~ x :: setToList table ∧
      (insertKey table x).length = table.length := by
  unfold insertKey
  cases hp : probeLoop table (table.length + 16) (pyHash x % table.length) (pyHash x) with
  | some slot => exact ⟨set_empty_perm table slot x (probeLoop_empty hp), by simp⟩
  | none =>
    cases hf : findFirstEmpty table with
    | none =>
      obtain ⟨s, hs⟩ := findFirstEmpty_total (exists_empty_of_fill_lt h)
      rw [hf] at hs
      cases hs
    | some slot => exact ⟨set_empty_perm table slot x (findFirstEmpty_spec hf), by simp⟩

theorem insertAll_spec : ∀ (keys : List Int) (table : List (Option Int)),
    setFill table + keys.length ≤ table.length →
    setToList (insertAll keys table) ~ keys ++ setToList table ∧
      (insertAll keys table).length = table.length := by
  intro keys
  induction keys with
  | nil => intro table _; exact ⟨List.Perm.refl _, rfl⟩
  | cons x rest ih =>
    intro table h
    rw [List.length_cons] at h
    have hlt : setFill table < table.length := by omega
    obtain ⟨hperm, hlen⟩ := insertKey_spec x hlt
    have hfill : setFill (insertKey table x) = setFill table + 1 := by
      simp [setFill, hperm.length_eq]
    obtain ⟨hp2, hl2⟩ := ih (insertKey table x) (by rw [hfill, hlen]; omega)
    refine ⟨?_, ?_⟩
    · calc setToList (insertAll rest (insertKey table x))
          ~ rest ++ setToList (insertKey table x) := hp2
        _ ~ rest ++ (x :: setToList table) := List.Perm.append_left rest hperm
        _ ~ x :: (rest ++ setToList table) := List.perm_middle
    · rw [show insertAll (x :: rest) table = insertAll rest (insertKey table x) from rfl,
        hl2, hlen]

theorem growSizeAux_gt : ∀ (fuel n m : Nat), m < 2 ^ fuel * n → m < growSizeAux fuel n m := by
  intro fuel
  induction fuel with
  | zero => intro n m h; simpa [growSizeAux] using h
  | succ fuel ih =>
    intro n m h
    simp only [growSizeAux]
    split
    · refine ih (2 * n) m ?_
      rw [pow_succ] at h
      calc m < 2 ^ fuel * 2 * n := h
        _ = 2 ^ fuel * (2 * n) := Nat.mul_assoc _ _ _
    · rename_i hn
      omega

theorem setToList_replicate (k : Nat) : setToList (List.replicate k none) = [] := by
  induction k with
  | zero => rfl
  | succ k ih => rw [List.replicate_succ, setToList_cons_none, ih]

theorem resizeTo_spec {table : List (Option Int)} {ns : Nat}
    (h : setFill table ≤ ns) :
    setToList (resizeTo ns table) ~ setToList table ∧ (resizeTo ns table).length = ns := by
  have hcond : setFill (List.replicate ns (none : Option Int)) +
      (setToList table).length ≤ (List.replicate ns (none : Option Int)).length := by
    rw [setFill, setToList_replicate, List.length_replicate]
    simpa [setFill] using h
  obtain ⟨hp, hl⟩ := insertAll_spec (setToList table) (List.replicate ns none) hcond
  refine ⟨?_, ?_⟩
  · rw [setToList_replicate, List.append_nil] at hp
    exact hp
  · rw [List.length_replicate] at hl
    exact hl

theorem addKey_spec {table : List (Option Int)} (x : Int)
    (hinv : 3 * setFill table < 2 * table.length) :
    setToList (addKey table x) ~ x :: setToList table ∧
      3 * setFill (addKey table x) < 2 * (addKey table x).length := by
  have hlt : setFill table < table.length := by omega
  obtain ⟨hperm, hlen⟩ := insertKey_spec x hlt
  have hfill : setFill (insertKey table x) = setFill table + 1 := by
    simp [setFill, hperm.length_eq]
  simp only [addKey]
  split
  · have hgt : 4 * setFill (insertKey table x) <
        growSizeAux (4 * setFill (insertKey table x) + 8) 8 (4 * setFill (insertKey table x)) := by
      apply growSizeAux_gt
      have h1 := Nat.lt_two_pow (4 * setFill (insertKey table x))
      have h2 : (2 : Nat) ^ (4 * setFill (insertKey table x)) ≤
          2 ^ (4 * setFill (insertKey table x) + 8) :=
        Nat.pow_le_pow_right (by omega) (by omega)
      omega
    obtain ⟨hp, hl⟩ := @resizeTo_spec (insertKey table x)
      (growSizeAux (4 * setFill (insertKey table x) + 8) 8 (4 * setFill (insertKey table x)))
      (by omega)
    refine ⟨hp.trans hperm, ?_⟩
    have hfr : setFill (resizeTo
        (growSizeAux (4 * setFill (insertKey table x) + 8) 8 (4 * setFill (insertKey table x)))
        (insertKey table x)) = setFill (insertKey table x) := hp.length_eq
    rw [hfr, hl]
    omega
  · rename_i hcond
    exact ⟨hperm, by omega⟩

theorem pySetFromList_spec : ∀ (keys : List Int) (table : List (Option Int)),
    3 * setFill table < 2 * table.length →
    setToList (keys.foldl addKey table) ~ keys ++ setToList table ∧
      3 * setFill (keys.foldl addKey table) < 2 * (keys.foldl addKey table).length := by
  intro keys
  induction keys with
  | nil => intro table h; exact ⟨List.Perm.refl _, h⟩
  | cons x rest ih =>
    intro table h
    obtain ⟨hp1, hinv1⟩ := addKey_spec x h
    obtain ⟨hp2, hinv2⟩ := ih (addKey table x) hinv1
    refine ⟨?_, hinv2⟩
    calc setToList (rest.foldl addKey (addKey table x))
        ~ rest ++ setToList (addKey table x) := hp2
      _ ~ rest ++ (x :: setToList table) := List.Perm.append_left rest hp1
      _ ~ x :: (rest ++ setToList table) := List.perm_middle

theorem pySetList_perm (l : List Int) :
    pySetList l ~ (l.insertionSort (· ≤ ·)).dedup := by
  have h := (pySetFromList_spec ((l.insertionSort (· ≤ ·)).dedup)
    (List.replicate 8 none) (by decide)).1
  rw [show setToList (List.replicate 8 (none : Option Int)) = [] from rfl,
    List.append_nil] at h
  exact h

theorem mem_pySetList {x : Int} {l : List Int} : x ∈ pySetList l ↔ x ∈ l :=
  ((pySetList_perm l).mem_iff).trans (List.mem_dedup.trans (List.mem_insertionSort _))

theorem pySetList_ne_nil {l : List Int} (h : l ≠ []) : pySetList l ≠ [] := by
  obtain ⟨x, hx⟩ := List.exists_mem_of_ne_nil l h
  intro hc
  have hmem : x ∈ pySetList l := mem_pySetList.mpr hx
  rw [hc] at hmem
  simp at hmem

/-! ### Order helpers -/

theorem getLastD_mem : ∀ (l : List Int) (d : Int), l ≠ [] → l.getLastD d ∈ l
  | [a], _, _ => by simp
  | a :: b :: t, d, _ => by
    have h := getLastD_mem (b :: t) a (by simp)
    rw [List.getLastD_cons]
    exact List.mem_cons_of_mem a h

theorem sorted_head_le {a : Int} {rest : List Int} {x : Int}
    (hs : (a :: rest).Sorted (· ≤ ·)) (hx : x ∈ a :: rest) : a ≤ x := by
  rcases List.mem_cons.mp hx with rfl | hmem
  · exact le_refl x
  · exact List.rel_of_sorted_cons hs x hmem

theorem sorted_le_getLastD {l : List Int} {x : Int} (d : Int)
    (hs : l.Sorted (· ≤ ·)) (hx : x ∈ l) : x ≤ l.getLastD d := by
  induction l generalizing d with
  | nil => simp at hx
  | cons a rest ih =>
    rw [List.getLastD_cons]
    rcases List.mem_cons.mp hx with rfl | hmem
    · cases rest with
      | nil => simp
      | cons b t =>
        exact List.rel_of_sorted_cons hs _ (getLastD_mem (b :: t) x (by simp))
    · exact ih a hs.of_cons hmem

/-! ### Structure of `finalize` and `expand_delegate_list` -/

theorem finalize_ok_elim {im l : List Int} (h : finalize im = .ok (some l)) :
    pySetList im = l ∧ l ≠ [] := by
  simp only [finalize] at h
  split at h
  · simp at h
  · rename_i a rest hps
    split at h
    · simp at h
    · split at h
      · simp at h
      · rw [Except.ok.injEq, Option.some.injEq] at h
        subst h
        exact ⟨hps, by simp⟩

theorem finalize_congr {im2 im : List Int} (he : pySetList im2 = pySetList im) :
    finalize im2 = finalize im := by
  unfold finalize
  rw [he]

theorem finalize_cases {im : List Int} (hne : pySetList im ≠ []) :
    (∃ m, finalize im = .error (.invalidRange m)) ∨
      ∃ a rest, finalize im = .ok (some (a :: rest)) := by
  cases hps : pySetList im with
  | nil => exact absurd hps hne
  | cons a rest =>
    simp only [finalize, hps]
    by_cases h1 : a < 1
    · exact .inl ⟨_, by rw [if_pos h1]⟩
    · rw [if_neg h1]
      by_cases h2 : (a :: rest).getLastD 0 > 50
      · exact .inl ⟨_, by rw [if_pos h2]⟩
      · rw [if_neg h2]
        exact .inr ⟨a, rest, rfl⟩

theorem expand_ok_elim {s : PyStr} {l : List Int}
    (h : expand_delegate_list (some s) = .ok (some l)) :
    ∃ im, combined_sequence s = .ok im ∧ finalize im = .ok (some l) := by
  simp only [expand_delegate_list] at h
  split at h
  · simp at h
  · rename_i im him
    exact ⟨im, him, h⟩

/-! ### Rendering a result back to a range expression -/

theorem splitOnChar_no_sep {sep : Char} {chunk : PyStr} (h : sep ∉ chunk) :
    splitOnChar sep chunk = [chunk] := by
  induction chunk with
  | nil => rfl
  | cons c rest ih =>
    rw [List.mem_cons, not_or] at h
    obtain ⟨h1, h2⟩ := h
    have hcs : ¬ c = sep := fun hc => h1 hc.symm
    simp only [splitOnChar, if_neg hcs, ih h2]

theorem splitOnChar_append {sep : Char} {chunk tail : PyStr} (h : sep ∉ chunk) :
    splitOnChar sep (chunk ++ sep :: tail) = chunk :: splitOnChar sep tail := by
  induction chunk with
  | nil => simp [splitOnChar]
  | cons c rest ih =>
    rw [List.mem_cons, not_or] at h
    obtain ⟨h1, h2⟩ := h
    have hcs : ¬ c = sep := fun hc => h1 hc.symm
    rw [List.cons_append]
    simp only [splitOnChar, if_neg hcs, ih h2]

theorem splitOnChar_renderDelegates :
    ∀ l : List Int, l ≠ [] → (∀ x ∈ l, ',' ∉ renderInt x) →
      splitOnChar ',' (renderDelegates l) = l.map renderInt
  | [], h, _ => absurd rfl h
  | [n], _, hc => by
    have e1 : renderDelegates [n] = renderInt n := rfl
    rw [e1, splitOnChar_no_sep (hc n (by simp))]
    rfl
  | n :: m :: t, _, hc => by
    have ih := splitOnChar_renderDelegates (m :: t) (by simp)
      (fun x hx => hc x (List.mem_cons_of_mem n hx))
    have e1 : renderDelegates (n :: m :: t) = renderInt n ++ ',' :: renderDelegates (m :: t) :=
      rfl
    rw [e1, splitOnChar_append (hc n (by simp)), ih]
    rfl

theorem combineItems_map :
    ∀ l : List Int, (∀ x ∈ l, processItem (renderInt x) = .ok [x]) →
      combineItems (l.map renderInt) = .ok l := by
  intro l
  induction l with
  | nil => intro _; rfl
  | cons n rest ih =>
    intro h
    rw [List.map_cons]
    simp only [combineItems, h n (by simp),
      ih (fun x hx => h x (List.mem_cons_of_mem n hx))]
    rfl

theorem digitChar_props : ∀ d : Nat, d < 10 →
    (digitChar d).isDigit = true ∧ isPySpace (digitChar d) = false ∧
      digitChar d ≠ '-' ∧ digitChar d ≠ '+' ∧ digitChar d ≠ ',' ∧
      (digitChar d).toNat = 48 + d := by
  decide

theorem renderNatAux_mem : ∀ (fuel n : Nat), ∀ c ∈ renderNatAux fuel n,
    ∃ d, d < 10 ∧ c = digitChar d := by
  intro fuel
  induction fuel with
  | zero => intro n c hc; simp [renderNatAux] at hc
  | succ fuel ih =>
    intro n c hc
    simp only [renderNatAux] at hc
    by_cases h : n < 10
    · rw [if_pos h, List.mem_singleton] at hc
      exact ⟨n, h, hc⟩
    · rw [if_neg h, List.mem_append] at hc
      rcases hc with hc | hc
      · exact ih (n / 10) c hc
      · rw [List.mem_singleton] at hc
        exact ⟨n % 10, Nat.mod_lt _ (by omega), hc⟩

theorem renderNat_ne_nil (n : Nat) : renderNat n ≠ [] := by
  rw [renderNat]
  simp only [renderNatAux]
  split
  · simp
  · simp

theorem digitsVal_append (ds : List Char) (c : Char) :
    digitsVal (ds ++ [c]) = digitsVal ds * 10 + (c.toNat - 48) := by
  rw [digitsVal, digitsVal, List.foldl_append]
  rfl

theorem renderNatAux_val : ∀ fuel n : Nat, n < fuel →
    digitsVal (renderNatAux fuel n) = n := by
  intro fuel
  induction fuel with
  | zero => intro n h; omega
  | succ fuel ih =>
    intro n h
    simp only [renderNatAux]
    by_cases h10 : n < 10
    · rw [if_pos h10]
      have hv : digitsVal [digitChar n] = 0 * 10 + ((digitChar n).toNat - 48) := rfl
      rw [hv, (digitChar_props n h10).2.2.2.2.2]
      omega
    · rw [if_neg h10, digitsVal_append, ih (n / 10) (by omega),
        (digitChar_props (n % 10) (by omega)).2.2.2.2.2]
      omega

theorem stripChars_eq_self {s : PyStr} (h : ∀ c ∈ s, isPySpace c = false) :
    stripChars s = s := by
  rw [stripChars]
  cases s with
  | nil => rfl
  | cons c rest =>
    rw [List.dropWhile_cons, h c (by simp), if_neg (by simp)]
    cases hrev : (c :: rest).reverse with
    | nil => simp at hrev
    | cons d tl =>
      have hd : d ∈ c :: rest := by
        rw [← List.mem_reverse, hrev]
        simp
      rw [List.dropWhile_cons, h d hd, if_neg (by simp), ← hrev,
        List.reverse_reverse]

theorem pyInt_eval {s : PyStr} {c : Char} {rest : List Char}
    (hstrip : stripChars s = c :: rest) :
    pyInt s =
      (let sgn : Int := if c = '-' then -1 else 1
       let ds : List Char := if c = '-' || c = '+' then rest else c :: rest
       if ds ≠ [] ∧ ds.all Char.isDigit = true then some (sgn * (digitsVal ds : Int))
       else none) := by
  unfold pyInt
  rw [hstrip]

theorem pyInt_digitList : ∀ (ds : List Char), ds ≠ [] →
    (∀ c ∈ ds, ∃ d, d < 10 ∧ c = digitChar d) →
    pyInt ds = some (digitsVal ds : Int) := by
  intro ds hne hd
  have hstrip : stripChars ds = ds :=
    stripChars_eq_self (fun c hc => by
      obtain ⟨d, hd10, rfl⟩ := hd c hc
      exact (digitChar_props d hd10).2.1)
  cases ds with
  | nil => exact absurd rfl hne
  | cons c rest =>
    obtain ⟨d, hd10, hc⟩ := hd c (by simp)
    have hprops := digitChar_props d hd10
    have hall : (c :: rest).all Char.isDigit = true := by
      rw [List.all_eq_true]
      intro q hq
      obtain ⟨d', hd10', rfl⟩ := hd q hq
      exact (digitChar_props d' hd10').1
    subst hc
    rw [pyInt_eval hstrip]
    have e1 : (if digitChar d = '-' then (-1 : Int) else 1) = 1 :=
      if_neg hprops.2.2.1
    have e2 : (if (digitChar d = '-' || digitChar d = '+') = true then rest
        else digitChar d :: rest) = digitChar d :: rest := by
      rw [if_neg]
      rw [decide_eq_false hprops.2.2.1, decide_eq_false hprops.2.2.2.1]
      simp
    simp only [e1, e2]
    rw [if_pos ⟨by simp, hall⟩, one_mul]

theorem pyInt_renderNat (n : Nat) : pyInt (renderNat n) = some (n : Int) := by
  rw [pyInt_digitList (renderNat n) (renderNat_ne_nil n) (renderNatAux_mem (n + 1) n)]
  rw [show digitsVal (renderNat n) = n from renderNatAux_val (n + 1) n (Nat.lt_succ_self n)]

theorem renderNat_no_comma (n : Nat) : ',' ∉ renderNat n := by
  intro hc
  obtain ⟨d, hd10, hd⟩ := renderNatAux_mem (n + 1) n ',' hc
  exact (digitChar_props d hd10).2.2.2.2.1 hd.symm

theorem renderNat_no_hyphen (n : Nat) : '-' ∉ renderNat n := by
  intro hc
  obtain ⟨d, hd10, hd⟩ := renderNatAux_mem (n + 1) n '-' hc
  exact (digitChar_props d hd10).2.2.1 hd.symm

theorem processItem_renderNat (m : Nat) : processItem (renderNat m) = .ok [(m : Int)] := by
  have hsplit : splitOnChar '-' (renderNat m) = [renderNat m] :=
    splitOnChar_no_sep (renderNat_no_hyphen m)
  simp only [processItem, hsplit, mapInt, pyInt_renderNat]

theorem processItem_render {x : Int} (hx : 0 ≤ x) :
    processItem (renderInt x) = .ok [x] := by
  rw [renderInt, processItem_renderNat, Int.toNat_of_nonneg hx]

/-! ### Elements of the combined sequence are nonnegative -/

theorem splitOnChar_sep_not_mem (sep : Char) :
    ∀ (s : PyStr), ∀ p ∈ splitOnChar sep s, sep ∉ p := by
  intro s
  induction s with
  | nil =>
    intro p hp
    simp [splitOnChar] at hp
    subst hp
    simp
  | cons c rest ih =>
    intro p hp
    by_cases hc : c = sep
    · simp only [splitOnChar, if_pos hc] at hp
      rcases List.mem_cons.mp hp with rfl | hmem
      · simp
      · exact ih p hmem
    · simp only [splitOnChar, if_neg hc] at hp
      cases hsp : splitOnChar sep rest with
      | nil => exact absurd hsp (splitOnChar_ne_nil sep rest)
      | cons chunk chunks =>
        rw [hsp] at hp
        rcases List.mem_cons.mp hp with rfl | hmem
        · intro hsep
          rcases List.mem_cons.mp hsep with h1 | h2
          · exact hc h1.symm
          · exact ih chunk (by rw [hsp]; exact List.mem_cons_self _ _) h2
        · exact ih p (by rw [hsp]; exact List.mem_cons_of_mem _ hmem)

theorem stripChars_subset {s : PyStr} {c : Char} (hc : c ∈ stripChars s) : c ∈ s := by
  rw [stripChars, List.mem_reverse] at hc
  have h1 : c ∈ (s.dropWhile isPySpace).reverse := (List.dropWhile_sublist _).subset hc
  rw [List.mem_reverse] at h1
  exact (List.dropWhile_sublist _).subset h1

theorem ite_digits_nonneg {X : List Char} {n : Int}
    (h : (if X ≠ [] ∧ X.all Char.isDigit = true then
        some ((1 : Int) * (digitsVal X : Int)) else none) = some n) : 0 ≤ n := by
  split at h
  · rw [Option.some.injEq] at h
    omega
  · simp at h

theorem pyInt_nonneg {p : PyStr} {n : Int} (hm : '-' ∉ p) (h : pyInt p = some n) :
    0 ≤ n := by
  cases hstrip : stripChars p with
  | nil =>
    rw [pyInt, hstrip] at h
    simp at h
  | cons c rest =>
    rw [pyInt_eval hstrip] at h
    have hcm : c ≠ '-' := by
      intro hq
      exact hm (stripChars_subset (by rw [hstrip]; exact hq ▸ List.mem_cons_self c rest))
    simp only [if_neg hcm] at h
    exact ite_digits_nonneg h

theorem mapInt_ok_nonneg : ∀ {ps : List PyStr} {ns : List Int},
    (∀ p ∈ ps, '-' ∉ p) → mapInt ps = .ok ns → ∀ n ∈ ns, 0 ≤ n := by
  intro ps
  induction ps with
  | nil => intro ns _ h n hn; simp [mapInt] at h; subst h; simp at hn
  | cons q rest ih =>
    intro ns hp h n hn
    simp only [mapInt] at h
    split at h
    · simp at h
    · rename_i k hq
      split at h
      · simp at h
      · rename_i ns' hrest
        rw [Except.ok.injEq] at h
        subst h
        rcases List.mem_cons.mp hn with rfl | hmem
        · exact pyInt_nonneg (hp q (by simp)) hq
        · exact ih (fun p hmem2 => hp p (List.mem_cons_of_mem q hmem2)) hrest n hmem

theorem processItem_ok_nonneg {item : PyStr} {xs : List Int}
    (h : processItem item = .ok xs) : ∀ x ∈ xs, 0 ≤ x := by
  simp only [processItem] at h
  split at h
  · simp at h
  · rename_i ti hm
    have hnn : ∀ k ∈ ti, 0 ≤ k :=
      mapInt_ok_nonneg (fun p hp => splitOnChar_sep_not_mem '-' item p hp) hm
    split at h
    · rename_i a
      rw [Except.ok.injEq] at h
      subst h
      intro x hx
      rw [List.mem_singleton] at hx
      subst hx
      exact hnn x (by simp)
    · rename_i a b
      split at h
      · rw [Except.ok.injEq] at h
        subst h
        intro x hx
        rw [mem_pyRange] at hx
        have := hnn a (by simp)
        omega
      · simp at h
    · simp at h

theorem combineItems_ok_nonneg : ∀ {items : List PyStr} {im : List Int},
    combineItems items = .ok im → ∀ x ∈ im, 0 ≤ x := by
  intro items
  induction items with
  | nil => intro im h x hx; simp [combineItems] at h; subst h; simp at hx
  | cons item rest ih =>
    intro im h x hx
    simp only [combineItems] at h
    split at h
    · simp at h
    · rename_i xs hpi
      split at h
      · simp at h
      · rename_i ys hci
        rw [Except.ok.injEq] at h
        subst h
        rcases List.mem_append.mp hx with hx | hx
        · exact processItem_ok_nonneg hpi x hx
        · exact ih hci x hx

/-! ### The claims -/

/-- C1: refuted — `list(set(sorted(...)))` does not produce ascending order.
On input "1,8" the parser returns `[8, 1]`: in the CPython 2 set table, 8
occupies slot `8 mod 8 = 0` and 1 occupies slot 1, so slot-order iteration
lists 8 first.  This contradicts both the claim and the function's own
docstring ("return a sorted list of integers"), so it is a bug in the code:
the `sorted` call is wasted because `set` discards the order. -/
theorem C1_unsorted_output :
    expand_delegate_list (some (pys "1,8")) = .ok (some [8, 1]) ∧
      ¬ ([8, 1] : List Int).Sorted (· < ·) :=
  ⟨by rfl, by decide⟩

/-- C2: a two-part token `lo-hi` expands to the full inclusive sequence
`lo..hi` exactly when `hi > lo` and `hi - lo < 50`; any other two-part token
fails with InvalidRangeSyntax ("Illegal delegate list"). -/
theorem C2_range_token :
    ∀ (item p₁ p₂ : PyStr) (lo hi : Int),
      splitOnChar '-' item = [p₁, p₂] → pyInt p₁ = some lo → pyInt p₂ = some hi →
      (hi > lo ∧ hi - lo < 50 → processItem item = .ok (pyRange lo (hi + 1))) ∧
      (¬(hi > lo ∧ hi - lo < 50) →
        processItem item = .error (.invalidRange "Illegal delegate list")) ∧
      (∀ x : Int, x ∈ pyRange lo (hi + 1) ↔ lo ≤ x ∧ x ≤ hi) := by
  intro item p₁ p₂ lo hi hsplit h1 h2
  have hm : mapInt (splitOnChar '-' item) = .ok [lo, hi] := by
    rw [hsplit]
    simp only [mapInt, h1, h2]
  refine ⟨?_, ?_, ?_⟩
  · intro hcond
    simp only [processItem, hm]
    rw [if_pos hcond]
  · intro hcond
    simp only [processItem, hm]
    rw [if_neg hcond]
  · intro x
    rw [mem_pyRange]
    omega

/-- Witness for C2 at the concrete token "1-3". -/
theorem C2_range_token_witness :
    processItem (pys "1-3") = .ok (pyRange 1 4) ∧
      ((2 : Int) ∈ pyRange 1 4 ↔ (1 : Int) ≤ 2 ∧ (2 : Int) ≤ 3) := by
  have h := C2_range_token (pys "1-3") (pys "1") (pys "3") 1 3 (by rfl) (by rfl) (by rfl)
  exact ⟨h.1 (by decide), h.2.2 2⟩

/-- C10: when the delegate list is null, `validate_delegate_list` returns
`True` for every bound value, even a missing or out-of-range one; the bound
is only examined when a non-null delegate list is present. -/
theorem C10_null_list_validates :
    ∀ mo : Option Int, validate_delegate_list none mo = .ok (some true) :=
  fun _ => rfl

/-- C3: refuted — the bound checks read `final_list[0]` and `final_list[-1]`,
which under CPython 2 set iteration are the first and last slots, not the
minimum and maximum.  On input "7,56" the table lists as `[56, 7]` (56 in
slot `56 mod 8 = 0`, 7 in slot 7), so the too-low check sees 56 and the
too-high check sees 7, both pass, and the out-of-range delegate 56 escapes
without the claimed InvalidRangeSyntax failure.  The error messages
("min. 1" / "max. 50") show min/max checks were intended, so this is a bug
in the code. -/
theorem C3_out_of_bounds_escape :
    expand_delegate_list (some (pys "7,56")) = .ok (some [56, 7]) ∧
      (56 : Int) ∈ ([56, 7] : List Int) ∧ ¬ (56 : Int) ≤ 50 :=
  ⟨by rfl, by decide, by decide⟩

/-- C4: the combined sequence of a non-null input is never empty (each token
either contributes an integer or aborts first), so the parse never returns
an empty set and never reaches the empty-list indexing fault; the claim's
conditional on an empty combined sequence is vacuously satisfied. -/
theorem C4_empty_unreachable :
    ∀ s : PyStr, (∀ im, combined_sequence s = .ok im → im ≠ []) ∧
      expand_delegate_list (some s) ≠ .ok (some []) ∧
      ∀ m, expand_delegate_list (some s) ≠ .error (.indexError m) := by
  intro s
  have hsplit := splitOnChar_ne_nil ',' s
  refine ⟨?_, ?_, ?_⟩
  · intro im him
    exact combineItems_ok_ne_nil hsplit him
  · intro hc
    obtain ⟨im, hcomb, hfin⟩ := expand_ok_elim hc
    exact (finalize_ok_elim hfin).2 rfl
  · intro m hc
    simp only [expand_delegate_list] at hc
    split at hc
    · rename_i e he
      rw [Except.error.injEq] at hc
      obtain ⟨m', hm'⟩ := combineItems_error_kind he
      rw [hm'] at hc
      cases hc
    · rename_i im him
      have hne : im ≠ [] := combineItems_ok_ne_nil hsplit him
      have hpne := pySetList_ne_nil hne
      simp only [finalize] at hc
      split at hc
      · rename_i hnil
        exact hpne hnil
      · split at hc
        · rw [Except.error.injEq] at hc
          cases hc
        · split at hc
          · rw [Except.error.injEq] at hc
            cases hc
          · cases hc

/-- Witness for C4 at the concrete input "7". -/
theorem C4_empty_unreachable_witness :
    ([7] : List Int) ≠ [] ∧ expand_delegate_list (some (pys "7")) ≠ .ok (some []) :=
  ⟨(C4_empty_unreachable (pys "7")).1 [7] (by rfl),
   (C4_empty_unreachable (pys "7")).2.1⟩

/-- C9: for every non-null input string the parse either signals an
InvalidRangeSyntax error or returns a non-empty list, so the first/last
indexing of the final list never faults. -/
theorem C9_error_or_nonempty :
    ∀ s : PyStr, (∃ m, expand_delegate_list (some s) = .error (.invalidRange m)) ∨
      ∃ a rest, expand_delegate_list (some s) = .ok (some (a :: rest)) := by
  intro s
  cases hcomb : combined_sequence s with
  | error e =>
    obtain ⟨m, rfl⟩ := combineItems_error_kind hcomb
    exact .inl ⟨m, by simp only [expand_delegate_list, hcomb]⟩
  | ok im =>
    have hne : im ≠ [] := combineItems_ok_ne_nil (splitOnChar_ne_nil ',' s) hcomb
    rcases finalize_cases (pySetList_ne_nil hne) with ⟨m, hm⟩ | ⟨a, rest, hm⟩
    · exact .inl ⟨m, by simp only [expand_delegate_list, hcomb, hm]⟩
    · exact .inr ⟨a, rest, by simp only [expand_delegate_list, hcomb, hm]⟩

/-- C5: for a non-null, non-empty, ascending delegate set and a bound in
[1, 50], `validate_delegate_list` fails with DelegateRangeExceeded exactly
when some element (equivalently, the maximum) exceeds the bound, and the
failure message names the bound; otherwise it succeeds. -/
theorem C5_validate_exceeds :
    ∀ (dl : List Int) (m : Int), dl ≠ [] → dl.Sorted (· ≤ ·) → 1 ≤ m → m ≤ 50 →
      ((∃ x ∈ dl, m < x) →
        validate_delegate_list (some dl) (some m) =
          .error (.exceedsMax ("Delegate list exceeds " ++ toString m ++
            " (maximum number of delegates in yaml)"))) ∧
      ((∀ x ∈ dl, x ≤ m) → validate_delegate_list (some dl) (some m) = .ok none) ∧
      (∀ msg, validate_delegate_list (some dl) (some m) = .error (.exceedsMax msg) →
        ∃ x ∈ dl, m < x) := by
  intro dl m hne hs h1 h50
  cases dl with
  | nil => exact absurd rfl hne
  | cons a rest =>
    have hcond : ¬(m < 1 ∨ m > 50) := by omega
    refine ⟨?_, ?_, ?_⟩
    · intro hex
      obtain ⟨x, hx, hmx⟩ := hex
      have hgt : (a :: rest).getLastD 0 > m :=
        lt_of_lt_of_le hmx (sorted_le_getLastD 0 hs hx)
      simp only [validate_delegate_list, if_neg hcond, if_pos hgt]
    · intro hall
      have hle : ¬ (a :: rest).getLastD 0 > m := by
        have := hall _ (getLastD_mem (a :: rest) 0 (by simp))
        omega
      simp only [validate_delegate_list, if_neg hcond, if_neg hle]
    · intro msg hval
      by_cases hgt : (a :: rest).getLastD 0 > m
      · exact ⟨_, getLastD_mem (a :: rest) 0 (by simp), hgt⟩
      · simp only [validate_delegate_list, if_neg hcond, if_neg hgt] at hval
        cases hval

/-- Witness for C5: `validate({1,2,3}, 2)` fails naming the bound 2. -/
theorem C5_validate_exceeds_witness :
    validate_delegate_list (some [1, 2, 3]) (some 2) =
      .error (.exceedsMax ("Delegate list exceeds " ++ toString (2 : Int) ++
        " (maximum number of delegates in yaml)")) :=
  (C5_validate_exceeds [1, 2, 3] 2 (by decide) (by decide) (by decide) (by decide)).1
    ⟨3, by decide, by decide⟩

/-- C6: for every non-null delegate set, a missing bound or a bound outside
[1, 50] makes `validate_delegate_list` fail with ConfigurationError, an
error distinct from the parser's InvalidRangeSyntax. -/
theorem C6_bad_bound_config_error :
    ∀ (dl : List Int) (mo : Option Int),
      (mo = none ∨ ∃ k, mo = some k ∧ (k < 1 ∨ 50 < k)) →
      ∃ msg, validate_delegate_list (some dl) mo = .error (.configError msg) ∧
        ∀ m2, Err.configError msg ≠ Err.invalidRange m2 := by
  intro dl mo hmo
  rcases hmo with rfl | ⟨k, rfl, hk⟩
  · exact ⟨"Bad number of delegates in yaml: None", rfl, fun m2 h => Err.noConfusion h⟩
  · have hc : k < 1 ∨ k > 50 := by omega
    refine ⟨"Bad number of delegates in yaml: " ++ toString k, ?_,
      fun m2 h => Err.noConfusion h⟩
    simp only [validate_delegate_list, if_pos hc]

/-- Witness for C6: a zero bound with delegate set [1]. -/
theorem C6_bad_bound_config_error_witness :
    ∃ msg, validate_delegate_list (some [1]) (some 0) = .error (.configError msg) ∧
      ∀ m2, Err.configError msg ≠ Err.invalidRange m2 :=
  C6_bad_bound_config_error [1] (some 0) (Or.inr ⟨0, rfl, by decide⟩)

/-- C7: an input containing a token that is non-numeric or splits into more
than two hyphen-separated parts makes the parse fail with
InvalidRangeSyntax; in particular "abc" fails. -/
theorem C7_bad_token_fails :
    (∀ s : PyStr, (∃ item ∈ splitOnChar ',' s, badToken item) →
      ∃ m, expand_delegate_list (some s) = .error (.invalidRange m)) ∧
    expand_delegate_list (some (pys "abc")) =
      .error (.invalidRange "invalid literal for int() with base 10: abc") := by
  constructor
  · intro s hbad
    obtain ⟨m, hm⟩ := combineItems_bad hbad
    exact ⟨m, by simp only [expand_delegate_list, combined_sequence, hm]⟩
  · rfl

/-- Witness for C7 at the concrete input "abc". -/
theorem C7_bad_token_fails_witness :
    ∃ m, expand_delegate_list (some (pys "abc")) = .error (.invalidRange m) :=
  C7_bad_token_fails.1 (pys "abc")
    ⟨pys "abc", by decide, Or.inl ⟨pys "abc", by decide, by decide⟩⟩

/-- C8: round-trip idempotence: if the parse succeeds with result `S`,
re-parsing the comma-separated decimal string of `S`'s elements in
ascending order succeeds and returns exactly `S` — the identical list,
hence the identical set.  The re-parse builds the same ascending
deduplicated insertion sequence as the original parse, so the same hash
table, the same slot-order listing, and the same (passing) bound checks. -/
theorem C8_roundtrip :
    ∀ (s : PyStr) (l : List Int), expand_delegate_list (some s) = .ok (some l) →
      expand_delegate_list (some (renderDelegates (l.insertionSort (· ≤ ·)))) =
        .ok (some l) := by
  intro s l h
  obtain ⟨im, hcomb, hfin⟩ := expand_ok_elim h
  obtain ⟨hps, hnil⟩ := finalize_ok_elim hfin
  have hpermD : l ~ (im.insertionSort (· ≤ ·)).dedup := hps ▸ pySetList_perm im
  have hperm_sl : l.insertionSort (· ≤ ·) ~ l := List.perm_insertionSort _ l
  have hsort_s : (l.insertionSort (· ≤ ·)).Sorted (· ≤ ·) :=
    List.sorted_insertionSort _ l
  have hD_sorted : ((im.insertionSort (· ≤ ·)).dedup).Sorted (· ≤ ·) :=
    List.Pairwise.sublist (List.dedup_sublist _) (List.sorted_insertionSort _ im)
  have heqD : l.insertionSort (· ≤ ·) = (im.insertionSort (· ≤ ·)).dedup :=
    List.eq_of_perm_of_sorted (hperm_sl.trans hpermD) hsort_s hD_sorted
  have hnodup : (l.insertionSort (· ≤ ·)).Nodup := by
    rw [heqD]
    exact List.nodup_dedup _
  have hne : l.insertionSort (· ≤ ·) ≠ [] := by
    intro hq
    exact hnil ((hq ▸ hperm_sl : ([] : List Int) ~ l).symm.eq_nil)
  have hnonneg : ∀ x ∈ l.insertionSort (· ≤ ·), 0 ≤ x := by
    intro x hx
    have hx2 : x ∈ im := by
      rw [← mem_pySetList, hps]
      exact hperm_sl.subset hx
    exact combineItems_ok_nonneg hcomb x hx2
  have hproc : ∀ x ∈ l.insertionSort (· ≤ ·), processItem (renderInt x) = .ok [x] :=
    fun x hx => processItem_render (hnonneg x hx)
  have hcsplit : splitOnChar ',' (renderDelegates (l.insertionSort (· ≤ ·))) =
      (l.insertionSort (· ≤ ·)).map renderInt :=
    splitOnChar_renderDelegates _ hne
      (fun x _ => by rw [renderInt]; exact renderNat_no_comma x.toNat)
  have hcomb2 : combined_sequence (renderDelegates (l.insertionSort (· ≤ ·))) =
      .ok (l.insertionSort (· ≤ ·)) := by
    rw [combined_sequence, hcsplit]
    exact combineItems_map _ hproc
  have hps2 : pySetList (l.insertionSort (· ≤ ·)) = pySetList im := by
    unfold pySetList
    rw [hsort_s.insertionSort_eq, hnodup.dedup, heqD]
  simp only [expand_delegate_list, hcomb2]
  rw [finalize_congr hps2, hfin]

/-- Witness for C8 at the concrete input "1-3,7". -/
theorem C8_roundtrip_witness :
    expand_delegate_list
        (some (renderDelegates (([1, 2, 3, 7] : List Int).insertionSort (· ≤ ·)))) =
      .ok (some [1, 2, 3, 7]) :=
  C8_roundtrip (pys "1-3,7") [1, 2, 3, 7] (by rfl)
